import Mathlib

/-!
# Verification of the ssh-tgzx archive/encryption pipeline

Shallow embedding of the core of `github.com/nicerobot/ssh-tgzx`:

* `Gopath` — the lexical path functions from Go's `path/filepath`
  (`Clean`, `Join`, `Dir`) for the Unix separator, used by the codec's
  path-traversal guard in `internal/archive`.  Strings are processed as
  their character lists so that every function evaluates by kernel
  reduction.
* `Constants` — the sentinel error kinds of `internal/constants`.
* `Archive` — the tar.gz codec `Create` / `Extract` / `List` of
  `internal/archive`.  The tar+gzip byte framing is abstracted as a
  list of entries plus a truncation flag: the format is internal to the
  pipeline (always produced and consumed by this same codec), so only
  the entry sequence is observable.
* `Crypt` — `internal/crypt`'s `Encrypt` / `Decrypt`, over an envelope
  model of the external `filippo.io/age` library.
* `Ghkeys` — the key-listing resolution loop of
  `internal/ghkeys.FetchRecipients`.
* `CreateCmd` — the producer/consumer error combination of the create
  command's pipeline (`internal/app/commands/create`).
-/

namespace Gopath

/-- Split a character list on `/`, keeping empty components, exactly as
`strings.Split` does (`"".splitOn` gives `[[]]`). -/
def splitSlash (l : List Char) : List (List Char) :=
  l.foldr (fun c acc =>
    if c = '/' then [] :: acc
    else match acc with
      | [] => [[c]]
      | a :: rest => (c :: a) :: rest) [[]]

/-- Join components with `/` (inverse of `splitSlash` on nonempty
component lists). -/
def joinSlash : List (List Char) → List Char
  | [] => []
  | [a] => a
  | a :: rest => a ++ '/' :: joinSlash rest

/-- One step of Go `filepath.Clean`'s element processing over the
`/`-separated components.  `stk` holds the output elements in reverse
order.  Mirrors the lazybuf loop of the Go source: empty and `.`
components are dropped; `..` pops a non-`..` top element, is dropped at
the root of a rooted path, and is appended otherwise. -/
def cleanLoop (rooted : Bool) : List (List Char) → List (List Char) → List (List Char)
  | stk, [] => stk
  | stk, c :: cs =>
    if c = [] || c = ['.'] then cleanLoop rooted stk cs
    else if c = ['.', '.'] then
      match stk with
      | [] => cleanLoop rooted (if rooted then [] else [['.', '.']]) cs
      | top :: rest =>
        if top = ['.', '.'] then cleanLoop rooted (c :: top :: rest) cs
        else cleanLoop rooted rest cs
    else cleanLoop rooted (c :: stk) cs

/-- Go `filepath.Clean` for the Unix separator, on character lists:
shortest lexically equivalent path. -/
def cleanL (l : List Char) : List Char :=
  if l = [] then ['.']
  else
    let rooted := l.head? = some '/'
    let stk := (cleanLoop rooted [] (splitSlash l)).reverse
    if rooted then '/' :: joinSlash stk
    else if stk = [] then ['.'] else joinSlash stk

/-- Go `filepath.Clean` on strings. -/
def clean (s : String) : String := ⟨cleanL s.data⟩

/-- Go `filepath.Join` restricted to two elements: empty elements are
skipped and the result is `Clean`ed, exactly as in the source. -/
def join2 (a b : String) : String :=
  if a.data = [] then (if b.data = [] then "" else clean b)
  else if b.data = [] then clean a
  else ⟨cleanL (a.data ++ '/' :: b.data)⟩

/-- Go `filepath.Dir`: everything up to and including the final `/`,
`Clean`ed; `.` when the path holds no separator. -/
def dirname (s : String) : String :=
  let parts := splitSlash s.data
  if parts.length ≤ 1 then "."
  else ⟨cleanL (joinSlash parts.dropLast ++ ['/'])⟩

/-- Go `strings.HasPrefix`. -/
def hasPre (s pre : String) : Bool := pre.data.isPrefixOf s.data

end Gopath

namespace Constants

/-- The sentinel error constants of `internal/constants`.  There is one
constructor per `Constant` declared in the source — in particular there
is no separate path-traversal kind. -/
inductive ErrKind where
  | missingArgument
  | fetchKeys
  | parseKey
  | noValidKeys
  | createArchive
  | encrypt
  | decrypt
  | extract
  | openFile
  | parseIdentity
  deriving DecidableEq

/-- The message string of each constant, as declared in
`internal/constants`. -/
def ErrKind.message : ErrKind → String
  | .missingArgument => "missing required argument"
  | .fetchKeys => "failed to fetch keys"
  | .parseKey => "failed to parse key"
  | .noValidKeys => "no valid keys found"
  | .createArchive => "failed to create archive"
  | .encrypt => "failed to encrypt"
  | .decrypt => "failed to decrypt"
  | .extract => "failed to extract"
  | .openFile => "failed to open file"
  | .parseIdentity => "failed to parse identity"

/-- An error as produced by `Constant.Wrap`: the sentinel kind plus the
additional context passed to `Wrap`. -/
structure Err where
  kind : ErrKind
  ctx : String
  deriving DecidableEq

/-- The kind of the error of a failed computation, if any. -/
def errKindOf {α : Type} : Except Err α → Option ErrKind
  | .error e => some e.kind
  | .ok _ => none

end Constants

namespace Archive

open Gopath Constants

/-- The `tar` entry type flags the codec distinguishes
(`tar.TypeDir`, `tar.TypeReg`, `tar.TypeSymlink`). -/
inductive TypeFlag where
  | reg
  | dir
  | symlink
  deriving DecidableEq

/-- One archive entry: the header fields the codec reads or writes
(`Name`, `Typeflag`, `Mode`, `Size`, `Linkname`) plus the content bytes
that follow the header in the stream (bytes as `Nat`, only compared for
equality). -/
structure Entry where
  name : String
  typeflag : TypeFlag
  mode : Nat
  size : Nat
  content : List Nat
  linkname : String
  deriving DecidableEq

/-- The decompressed archive byte stream, abstracted to the entry
sequence it frames.  `truncated` models a stream whose tar framing ends
prematurely after the listed entries: `tar.Reader.Next` (or the
enclosing gzip reader) errors there instead of reporting end-of-file. -/
structure TarStream where
  entries : List Entry
  truncated : Bool
  deriving DecidableEq

/-- A filesystem node for the `Create` side: the part of the on-disk
tree rooted at one walked path.  Directory children are listed in the
order `filepath.Walk` visits them (lexical order of names). -/
inductive FsNode where
  | file (mode : Nat) (content : List Nat)
  | dir (mode : Nat) (children : List (String × FsNode))
  | symlink (mode : Nat) (target : String)

mutual

/-- `addPath`'s walk of one root: `filepath.Walk` visits the root, then
(for directories) each child under `filepath.Join(path, name)`.  Each
visit emits one header via `tar.FileInfoHeader` (with `header.Name`
overwritten to the walked path) followed by the file content for
regular files; directories and symlinks contribute no content, and a
symlink's target is recorded in `Linkname`. -/
def walk (path : String) : FsNode → List Entry
  | .file m c => [⟨path, .reg, m, c.length, c, ""⟩]
  | .dir m children => ⟨path, .dir, m, 0, [], ""⟩ :: walkChildren path children
  | .symlink m t => [⟨path, .symlink, m, 0, [], t⟩]

/-- Walk the children of a directory in order. -/
def walkChildren (path : String) : List (String × FsNode) → List Entry
  | [] => []
  | (nm, child) :: rest =>
      walk (Gopath.join2 path nm) child ++ walkChildren path rest

end

/-- `archive.Create`: walk every given path in order and frame the
resulting entries (filesystem read errors are not representable in the
tree model, so the `CreateArchiveFailed` path does not arise). -/
def Create (roots : List (String × FsNode)) : TarStream :=
  ⟨roots.flatMap (fun r => walk r.1 r.2), false⟩

/-- What `Extract` materializes at one path: a regular file with its
bytes, or a directory. -/
inductive ExtObj where
  | file (mode : Nat) (content : List Nat)
  | dir (mode : Nat)
  deriving DecidableEq

/-- The extraction-side filesystem under the destination root, as an
association list from path to object; the most recent binding for a
path shadows older ones. -/
abbrev ExtFs := List (String × ExtObj)

/-- Look up the current object at a path. -/
def fsLookup (fs : ExtFs) (p : String) : Option ExtObj :=
  match fs.find? (fun x => x.1 = p) with
  | some x => some x.2
  | none => none

/-- `os.OpenFile(target, O_CREATE|O_WRONLY|O_TRUNC, mode)` followed by
a full write: bind `p` to `o`, replacing any previous binding. -/
def fsInsert (p : String) (o : ExtObj) (fs : ExtFs) : ExtFs := (p, o) :: fs

/-- One level of `os.MkdirAll`: create the directory if nothing exists
at `p` yet, otherwise leave the filesystem unchanged. -/
def mkdirOnce (p : String) (mode : Nat) (fs : ExtFs) : ExtFs :=
  match fsLookup fs p with
  | some _ => fs
  | none => (p, .dir mode) :: fs

/-- The chain of paths `os.MkdirAll p` creates when missing: `p`,
`Dir p`, `Dir (Dir p)`, …, stopping at `.`, `/` or the empty path
(which always exist).  Fuel-indexed; `dirname` shortens its argument,
so `length + 1` fuel always suffices. -/
def dirChain : Nat → String → List String
  | 0, _ => []
  | fuel + 1, p =>
    if p = "." ∨ p = "/" ∨ p = "" then []
    else p :: dirChain fuel (Gopath.dirname p)

/-- The creation chain of one `os.MkdirAll` call, with enough fuel for
the whole ancestor walk. -/
def chainOf (p : String) : List String := dirChain (p.data.length + 1) p

/-- `os.MkdirAll p mode`: create every missing directory on the chain
from the root down to `p`, each with the given mode.  (The Go call
fails when a chain element exists as a regular file; the model leaves
such a binding in place, and theorems needing the created directories
assume no such collision.) -/
def mkdirAll (p : String) (mode : Nat) (fs : ExtFs) : ExtFs :=
  (chainOf p).reverse.foldl (fun acc q => mkdirOnce q mode acc) fs

/-- The extraction target of an entry:
`target := filepath.Join(destDir, header.Name)`. -/
def target (destDir : String) (e : Entry) : String :=
  Gopath.join2 destDir e.name

/-- The path-traversal guard of `archive.Extract`, verbatim: the entry
passes when `filepath.Clean(target)` has `filepath.Clean(destDir)` plus
the separator as a prefix, or equals `filepath.Clean(destDir)`. -/
def guardOk (destDir : String) (e : Entry) : Bool :=
  Gopath.hasPre (Gopath.clean (target destDir e))
      (Gopath.clean destDir ++ "/")
    || Gopath.clean (target destDir e) = Gopath.clean destDir

/-- The filesystem effect of one accepted entry, following the
`switch header.Typeflag` of `Extract`: directories via
`os.MkdirAll(target, mode)`; regular files via
`os.MkdirAll(filepath.Dir(target), 0o755)` then a truncating write of
the entry's content bytes; every other flag (symlinks) does nothing. -/
def extractStepFs (destDir : String) (fs : ExtFs) (e : Entry) : ExtFs :=
  match e.typeflag with
  | .dir => mkdirAll (target destDir e) e.mode fs
  | .reg =>
      fsInsert (target destDir e) (.file e.mode e.content)
        (mkdirAll (Gopath.dirname (target destDir e)) 493 fs)
  | .symlink => fs

/-- The entry loop of `archive.Extract`.  Each entry is first checked
against the guard — on failure the loop aborts at once with
`ErrExtract` wrapping `"path traversal: " ++ name` and the filesystem
as materialized so far — then materialized, and its name appended to
the result.  A truncated stream makes the terminal `tar.Reader.Next`
error, wrapped as `ErrExtract`. -/
def extractLoop (destDir : String) (truncated : Bool) :
    List Entry → ExtFs → List String → (Except Err (List String)) × ExtFs
  | [], fs, acc =>
      (if truncated then .error ⟨.extract, "unexpected EOF"⟩ else .ok acc, fs)
  | e :: rest, fs, acc =>
      if guardOk destDir e then
        extractLoop destDir truncated rest (extractStepFs destDir fs e)
          (acc ++ [e.name])
      else
        (.error ⟨.extract, "path traversal: " ++ e.name⟩, fs)

/-- `archive.Extract`: run the entry loop against the filesystem `fs`
found under the destination root (the function both returns the
name-list-or-error and leaves the filesystem in its final state — Go
mutates the disk in place). -/
def Extract (s : TarStream) (destDir : String) (fs : ExtFs) :
    (Except Err (List String)) × ExtFs :=
  extractLoop destDir s.truncated s.entries fs []

/-- `archive.List`: scan every header, skipping content, and return the
names in encounter order; a malformed/truncated stream errors with
`ErrExtract`. -/
protected def List (s : TarStream) : Except Err (List String) :=
  if s.truncated then .error ⟨.extract, "unexpected EOF"⟩
  else .ok (s.entries.map (·.name))

/-- The pure materialization fold: the filesystem after processing the
given entries, ignoring guard aborts (used to state what a prefix of
the stream has put on disk). -/
def applyEntries (destDir : String) (fs : ExtFs) (es : List Entry) : ExtFs :=
  es.foldl (extractStepFs destDir) fs

/-- The directory paths one accepted entry may create: the `MkdirAll`
chain of its target (directory entry) or of its target's parent
(regular-file entry); symlink entries create nothing. -/
def dirTouched (destDir : String) (e : Entry) : List String :=
  match e.typeflag with
  | .dir => chainOf (target destDir e)
  | .reg => chainOf (Gopath.dirname (target destDir e))
  | .symlink => []

/-- All paths one accepted entry may write: its directory chain, plus
the target itself for a regular file. -/
def touched (destDir : String) (e : Entry) : List String :=
  match e.typeflag with
  | .reg => target destDir e :: dirTouched destDir e
  | _ => dirTouched destDir e

/-- Whether a path is currently bound to a regular file. -/
def isFileAt (fs : ExtFs) (p : String) : Bool :=
  match fsLookup fs p with
  | some (.file _ _) => true
  | _ => false

end Archive

namespace Crypt

open Constants

/-- A recipient public key, abstracted to an opaque identifier; only
the matching between an identity's public counterpart and the
recipients recorded in an envelope is observable. -/
abbrev PubKey := Nat

/-- Modelled from the spec: an age Identity is "a private key loaded
from a single local key file"; decryption succeeds exactly when "its
public counterpart was among the Recipients at encryption time", so
the model records that public counterpart. -/
structure Identity where
  pub : PubKey
  deriving DecidableEq

/-- Modelled from the spec: the age encrypted envelope — "a small
header identifying the encryption scheme, one wrapped-key record per
Recipient used at encryption time, the symmetrically encrypted payload
in fixed-size authenticated chunks".  The wrapped-key records are
keyed by the recipient public keys; the authenticated payload carries
the plaintext. -/
structure Envelope (α : Type) where
  recipients : List PubKey
  payload : α
  deriving DecidableEq

/-- Modelled from the spec: `age.Encrypt` — missing from src (external
`filippo.io/age` library).  Wraps a fresh content key once per
recipient and streams the plaintext through the authenticated cipher;
"fails ... if the recipient set is empty". -/
def ageEncrypt {α : Type} (recipients : List PubKey) (x : α) :
    Except String (Envelope α) :=
  if recipients.isEmpty then .error "no recipients specified"
  else .ok ⟨recipients, x⟩

/-- Modelled from the spec: `age.Decrypt` — missing from src (external
`filippo.io/age` library).  "For each supplied Identity, attempt to
unwrap each wrapped-key record ...; the content key is recovered on
the first record that successfully unwraps under any identity.  If no
identity unwraps any record, fail." -/
def ageDecrypt {α : Type} (identities : List Identity) (env : Envelope α) :
    Except String α :=
  if identities.any (fun i => env.recipients.contains i.pub) then
    .ok env.payload
  else .error "no identity matched a recipient"

/-- `crypt.Encrypt`: run `age.Encrypt` and wrap any failure with
`ErrEncrypt` (the copy/close failures of the real stream plumbing are
not representable over a pure payload). -/
def Encrypt {α : Type} (recipients : List PubKey) (x : α) :
    Except Err (Envelope α) :=
  match ageEncrypt recipients x with
  | .ok env => .ok env
  | .error m => .error ⟨.encrypt, m⟩

/-- `crypt.Decrypt`: run `age.Decrypt` and wrap any failure with
`ErrDecrypt`. -/
def Decrypt {α : Type} (identities : List Identity) (env : Envelope α) :
    Except Err α :=
  match ageDecrypt identities env with
  | .ok x => .ok x
  | .error m => .error ⟨.decrypt, m⟩

end Crypt

namespace Ghkeys

open Constants

/-- Split a character list on `'\n'`, keeping empty pieces. -/
def splitNL (l : List Char) : List (List Char) :=
  l.foldr (fun c acc =>
    if c = '\n' then [] :: acc
    else match acc with
      | [] => [[c]]
      | a :: rest => (c :: a) :: rest) [[]]

/-- `bufio.ScanLines`' `dropCR`: strip one trailing carriage return. -/
def dropCR (l : List Char) : List Char :=
  if l.getLast? = some '\r' then l.dropLast else l

/-- The lines a `bufio.Scanner` with the default `ScanLines` split
yields on the body: pieces between newlines with a trailing carriage
return dropped; a final empty piece after a terminal newline is not a
token, and an unterminated final line is. -/
def scanLines (body : String) : List String :=
  let parts := splitNL body.data
  let parts := if parts.getLast? = some [] then parts.dropLast else parts
  parts.map (fun l => ⟨dropCR l⟩)

/-- The ASCII cases of Go `unicode.IsSpace`, which `strings.TrimSpace`
trims (SSH key listings are ASCII). -/
def isSpace (c : Char) : Bool :=
  c == ' ' || c == '\t' || c == '\n' || c == '\x0b' || c == '\x0c' || c == '\r'

/-- Go `strings.TrimSpace`: drop whitespace from both ends. -/
def trimSpace (s : String) : String :=
  ⟨((s.data.dropWhile isSpace).reverse.dropWhile isSpace).reverse⟩

/-- The per-line accumulation step of `FetchRecipients`: blank lines
are skipped; a line `agessh.ParseRecipient` rejects is skipped with
only a log warning; a parsed recipient is appended. -/
def keyLineStep {R : Type} (parse : String → Option R)
    (acc : List R) (line : String) : List R :=
  let line := trimSpace line
  if line = "" then acc
  else
    match parse line with
    | none => acc
    | some r => acc ++ [r]

/-- The body-processing half of `ghkeys.FetchRecipients`, entered once
the HTTP fetch itself succeeded with this body.  `parse` stands for
the external `agessh.ParseRecipient`.  After scanning every line, an
empty recipient list fails with `ErrNoValidKeys` naming the user. -/
def FetchRecipients {R : Type} (parse : String → Option R)
    (username : String) (body : String) : Except Err (List R) :=
  let recipients := (scanLines body).foldl (keyLineStep parse) []
  if recipients.isEmpty then .error ⟨.noValidKeys, username⟩
  else .ok recipients

end Ghkeys

namespace CreateCmd

open Constants

/-- The result-combination tail of `create.Run`'s pipeline (the
producer goroutine runs `archive.Create` and sends its error on
`errCh`; the consumer is `crypt.Encrypt`): first
`if err := crypt.Encrypt(...); err != nil { return }`, then
`if err := <-errCh; err != nil { return }`, otherwise success. -/
def pipelineResult (encryptErr archiveErr : Option Err) : Option Err :=
  match encryptErr with
  | some e => some e
  | none =>
    match archiveErr with
    | some e => some e
    | none => none

end CreateCmd

namespace Archive

open Constants

/-- When every entry passes the guard, the loop materializes all of
them, appends all names, and only then reports truncation if any. -/
theorem extractLoop_ok (d : String) (t : Bool) (es : List Entry)
    (fs : ExtFs) (acc : List String)
    (h : ∀ e ∈ es, guardOk d e = true) :
    extractLoop d t es fs acc =
      ((if t then .error ⟨.extract, "unexpected EOF"⟩
        else .ok (acc ++ es.map (·.name))),
       applyEntries d fs es) := by
  induction es generalizing fs acc with
  | nil => simp [extractLoop, applyEntries]
  | cons e rest ih =>
    have hg : guardOk d e = true := h e (List.mem_cons_self _ _)
    have hrest : ∀ x ∈ rest, guardOk d x = true :=
      fun x hx => h x (List.mem_cons_of_mem _ hx)
    simp only [extractLoop, hg, if_true, applyEntries, List.foldl_cons,
      List.map_cons]
    rw [ih _ _ hrest]
    simp [applyEntries, List.append_assoc]

/-- When a prefix passes the guard and the next entry fails it, the
loop aborts there: the `ErrExtract`-wrapped path-traversal error names
the entry, and the filesystem holds exactly the prefix's
materialization. -/
theorem extractLoop_abort (d : String) (t : Bool) (pre : List Entry)
    (bad : Entry) (post : List Entry) (fs : ExtFs) (acc : List String)
    (hpre : ∀ e ∈ pre, guardOk d e = true)
    (hbad : guardOk d bad = false) :
    extractLoop d t (pre ++ bad :: post) fs acc =
      (.error ⟨.extract, "path traversal: " ++ bad.name⟩,
       applyEntries d fs pre) := by
  induction pre generalizing fs acc with
  | nil => simp [extractLoop, hbad, applyEntries]
  | cons e rest ih =>
    have hg : guardOk d e = true := hpre e (List.mem_cons_self _ _)
    have hrest : ∀ x ∈ rest, guardOk d x = true :=
      fun x hx => hpre x (List.mem_cons_of_mem _ hx)
    simp only [List.cons_append, extractLoop, hg, if_true, List.append_eq]
    rw [ih _ _ hrest]
    simp [applyEntries]

/-- Inversion of a successful loop run: the stream was not truncated,
every entry passed the guard, and the returned names are the
accumulated names followed by every entry name in order. -/
theorem extractLoop_ok_inv (d : String) (t : Bool) (es : List Entry)
    (fs : ExtFs) (acc names : List String)
    (h : (extractLoop d t es fs acc).1 = .ok names) :
    t = false ∧ (∀ e ∈ es, guardOk d e = true) ∧
      names = acc ++ es.map (·.name) := by
  induction es generalizing fs acc with
  | nil =>
    cases t with
    | false =>
      simp only [extractLoop, if_neg Bool.false_ne_true] at h
      cases h
      simp
    | true => simp [extractLoop] at h
  | cons e rest ih =>
    by_cases hg : guardOk d e = true
    · simp only [extractLoop, hg, if_true] at h
      obtain ⟨ht, hall, hnames⟩ := ih _ _ h
      refine ⟨ht, ?_, ?_⟩
      · intro x hx
        rcases List.mem_cons.mp hx with rfl | hx
        · exact hg
        · exact hall x hx
      · simpa [List.append_assoc] using hnames
    · rw [Bool.not_eq_true] at hg
      simp [extractLoop, hg] at h

/-- Inversion of a successful `Extract`. -/
theorem Extract_ok_inv (s : TarStream) (d : String) (fs : ExtFs)
    (names : List String) (h : (Extract s d fs).1 = .ok names) :
    s.truncated = false ∧ (∀ e ∈ s.entries, guardOk d e = true) ∧
      names = s.entries.map (·.name) := by
  have := extractLoop_ok_inv d s.truncated s.entries fs [] names h
  simpa using this

end Archive

namespace Archive

/-- Looking up the just-written path finds the new object. -/
theorem fsLookup_insert_self (p : String) (o : ExtObj) (fs : ExtFs) :
    fsLookup (fsInsert p o fs) p = some o := by
  simp [fsLookup, fsInsert, List.find?]

/-- Writing one path leaves every other path's binding unchanged. -/
theorem fsLookup_insert_ne (p q : String) (o : ExtObj) (fs : ExtFs)
    (h : q ≠ p) : fsLookup (fsInsert p o fs) q = fsLookup fs q := by
  have hd : decide (p = q) = false := decide_eq_false (Ne.symm h)
  simp [fsLookup, fsInsert, List.find?, hd]

/-- `mkdirOnce` at the created path: an existing binding is kept, a
missing one becomes the new directory. -/
theorem fsLookup_mkdirOnce_self (p : String) (m : Nat) (fs : ExtFs) :
    fsLookup (mkdirOnce p m fs) p =
      some ((fsLookup fs p).getD (.dir m)) := by
  unfold mkdirOnce
  cases h : fsLookup fs p with
  | some o => simp [h]
  | none => simp [fsLookup, List.find?]

/-- `mkdirOnce` at one path leaves every other path unchanged. -/
theorem fsLookup_mkdirOnce_ne (p q : String) (m : Nat) (fs : ExtFs)
    (h : q ≠ p) : fsLookup (mkdirOnce p m fs) q = fsLookup fs q := by
  have hd : decide (p = q) = false := decide_eq_false (Ne.symm h)
  unfold mkdirOnce
  cases hp : fsLookup fs p with
  | some o => rfl
  | none => simp [fsLookup, List.find?, hd]

/-- Folding `mkdirOnce` over a list of paths: a path in the list ends
up bound (to its old object if it had one, to a fresh directory
otherwise); every other path is unchanged. -/
theorem fsLookup_foldl_mkdirOnce (l : List String) (m : Nat)
    (fs : ExtFs) (q : String) :
    fsLookup (l.foldl (fun acc p => mkdirOnce p m acc) fs) q =
      if q ∈ l then some ((fsLookup fs q).getD (.dir m))
      else fsLookup fs q := by
  induction l generalizing fs with
  | nil => simp
  | cons p rest ih =>
    simp only [List.foldl_cons]
    rw [ih]
    by_cases hq : q = p
    · subst hq
      by_cases hmem : q ∈ rest
      · simp [hmem, fsLookup_mkdirOnce_self]
      · simp [hmem, fsLookup_mkdirOnce_self]
    · rw [fsLookup_mkdirOnce_ne _ _ _ _ hq]
      by_cases hmem : q ∈ rest
      · simp [hmem, hq]
      · simp [hmem, hq]

/-- `mkdirAll` resolved at a path on its creation chain. -/
theorem fsLookup_mkdirAll_mem (p q : String) (m : Nat) (fs : ExtFs)
    (h : q ∈ chainOf p) :
    fsLookup (mkdirAll p m fs) q =
      some ((fsLookup fs q).getD (.dir m)) := by
  unfold mkdirAll
  rw [fsLookup_foldl_mkdirOnce]
  simp [List.mem_reverse, h]

/-- `mkdirAll` resolved off its creation chain: unchanged. -/
theorem fsLookup_mkdirAll_notMem (p q : String) (m : Nat) (fs : ExtFs)
    (h : q ∉ chainOf p) :
    fsLookup (mkdirAll p m fs) q = fsLookup fs q := by
  unfold mkdirAll
  rw [fsLookup_foldl_mkdirOnce]
  simp [List.mem_reverse, h]

/-- `mkdirAll` never disturbs an existing binding. -/
theorem fsLookup_mkdirAll_existing (p q : String) (m : Nat) (fs : ExtFs)
    (o : ExtObj) (h : fsLookup fs q = some o) :
    fsLookup (mkdirAll p m fs) q = some o := by
  by_cases hmem : q ∈ chainOf p
  · rw [fsLookup_mkdirAll_mem _ _ _ _ hmem, h]
    rfl
  · rw [fsLookup_mkdirAll_notMem _ _ _ _ hmem, h]

end Archive

namespace Archive

/-- A step leaves every path it does not touch unchanged. -/
theorem fsLookup_step_untouched (d : String) (fs : ExtFs) (e : Entry)
    (q : String) (h : q ∉ touched d e) :
    fsLookup (extractStepFs d fs e) q = fsLookup fs q := by
  unfold extractStepFs
  cases hf : e.typeflag with
  | dir =>
    apply fsLookup_mkdirAll_notMem
    simpa [touched, dirTouched, hf] using h
  | reg =>
    simp only [touched, dirTouched, hf, List.mem_cons, not_or] at h
    rw [fsLookup_insert_ne _ _ _ _ h.1]
    exact fsLookup_mkdirAll_notMem _ _ _ _ h.2
  | symlink => rfl

/-- A step preserves any existing binding at a path that is not the
target of a regular-file entry (`MkdirAll` never overwrites; only the
truncating file write does). -/
theorem fsLookup_step_existing (d : String) (fs : ExtFs) (e : Entry)
    (q : String) (o : ExtObj) (h : fsLookup fs q = some o)
    (hreg : e.typeflag = .reg → target d e ≠ q) :
    fsLookup (extractStepFs d fs e) q = some o := by
  unfold extractStepFs
  cases hf : e.typeflag with
  | dir => exact fsLookup_mkdirAll_existing _ _ _ _ _ h
  | reg =>
    rw [fsLookup_insert_ne _ _ _ _ (Ne.symm (hreg hf))]
    exact fsLookup_mkdirAll_existing _ _ _ _ _ h
  | symlink => exact h

/-- Folding a run of entries preserves any existing binding whose path
no regular-file entry of the run targets. -/
theorem fsLookup_apply_existing (d : String) (es : List Entry)
    (fs : ExtFs) (q : String) (o : ExtObj) (h : fsLookup fs q = some o)
    (hreg : ∀ e ∈ es, e.typeflag = .reg → target d e ≠ q) :
    fsLookup (applyEntries d fs es) q = some o := by
  induction es generalizing fs with
  | nil => exact h
  | cons e rest ih =>
    simp only [applyEntries, List.foldl_cons]
    exact ih _ (fsLookup_step_existing d fs e q o h
      (hreg e (List.mem_cons_self _ _))) 
      (fun x hx => hreg x (List.mem_cons_of_mem _ hx))

/-- A regular-file binding after one step comes either from before the
step or from the step's own file write. -/
theorem fsLookup_step_file_source (d : String) (fs : ExtFs) (e : Entry)
    (q : String) (m : Nat) (c : List Nat)
    (h : fsLookup (extractStepFs d fs e) q = some (.file m c)) :
    fsLookup fs q = some (.file m c) ∨
      (e.typeflag = .reg ∧ target d e = q) := by
  unfold extractStepFs at h
  cases hf : e.typeflag with
  | dir =>
    rw [hf] at h
    left
    by_cases hmem : q ∈ chainOf (target d e)
    · rw [fsLookup_mkdirAll_mem _ _ _ _ hmem] at h
      cases hq : fsLookup fs q with
      | some o =>
        rw [hq] at h
        simp only [Option.getD_some, Option.some.injEq] at h
        rw [h]
      | none => rw [hq] at h; simp [Option.getD] at h
    · rwa [fsLookup_mkdirAll_notMem _ _ _ _ hmem] at h
  | reg =>
    rw [hf] at h
    by_cases ht : target d e = q
    · right; exact ⟨rfl, ht⟩
    · left
      rw [fsLookup_insert_ne _ _ _ _ (Ne.symm ht)] at h
      by_cases hmem : q ∈ chainOf (Gopath.dirname (target d e))
      · rw [fsLookup_mkdirAll_mem _ _ _ _ hmem] at h
        cases hq : fsLookup fs q with
        | some o =>
          rw [hq] at h
          simp only [Option.getD_some, Option.some.injEq] at h
          rw [h]
        | none => rw [hq] at h; simp [Option.getD] at h
      · rwa [fsLookup_mkdirAll_notMem _ _ _ _ hmem] at h
  | symlink => rw [hf] at h; exact Or.inl h

/-- A regular-file binding after a run of entries comes either from
before the run or from some regular-file entry of the run targeting
that path. -/
theorem fsLookup_apply_file_source (d : String) (es : List Entry)
    (fs : ExtFs) (q : String) (m : Nat) (c : List Nat)
    (h : fsLookup (applyEntries d fs es) q = some (.file m c)) :
    fsLookup fs q = some (.file m c) ∨
      ∃ e ∈ es, e.typeflag = .reg ∧ target d e = q := by
  induction es generalizing fs with
  | nil => exact Or.inl h
  | cons e rest ih =>
    simp only [applyEntries, List.foldl_cons] at h
    rcases ih _ h with hstep | ⟨x, hx, hxr, hxt⟩
    · rcases fsLookup_step_file_source d fs e q m c hstep with hold | hnew
      · exact Or.inl hold
      · exact Or.inr ⟨e, List.mem_cons_self _ _, hnew⟩
    · exact Or.inr ⟨x, List.mem_cons_of_mem _ hx, hxr, hxt⟩

end Archive

namespace Ghkeys

/-- A blank or unparseable line leaves the accumulated recipients
unchanged. -/
theorem keyLineStep_skip {R : Type} (parse : String → Option R)
    (acc : List R) (l : String)
    (h : trimSpace l = "" ∨ parse (trimSpace l) = none) :
    keyLineStep parse acc l = acc := by
  unfold keyLineStep
  by_cases hb : trimSpace l = ""
  · simp [hb]
  · rcases h with h | h
    · exact absurd h hb
    · simp [hb, h]

/-- A listing of only blank or unparseable lines accumulates nothing. -/
theorem foldl_keyLineStep_skip {R : Type} (parse : String → Option R)
    (lines : List String) (acc : List R)
    (h : ∀ l ∈ lines, trimSpace l = "" ∨ parse (trimSpace l) = none) :
    lines.foldl (keyLineStep parse) acc = acc := by
  induction lines generalizing acc with
  | nil => rfl
  | cons l rest ih =>
    rw [List.foldl_cons, keyLineStep_skip parse acc l (h l (List.mem_cons_self _ _))]
    exact ih _ (fun x hx => h x (List.mem_cons_of_mem _ hx))

end Ghkeys

/-- C5: a key-listing fetch that succeeds but yields no usable key —
every scanned line is blank after trimming or fails to parse as a
supported public key — makes resolution fail with the `NoValidKeys`
error kind, naming the user. -/
theorem claim_C5 {R : Type} (parse : String → Option R)
    (username body : String)
    (h : ∀ l ∈ Ghkeys.scanLines body,
      Ghkeys.trimSpace l = "" ∨ parse (Ghkeys.trimSpace l) = none) :
    Ghkeys.FetchRecipients parse username body =
      .error ⟨Constants.ErrKind.noValidKeys, username⟩ := by
  unfold Ghkeys.FetchRecipients
  rw [Ghkeys.foldl_keyLineStep_skip parse _ _ h]
  rfl

/-- Witness for C5: a listing of a blank line and an
unsupported-algorithm line resolves to `NoValidKeys`. -/
theorem claim_C5_witness :
    Ghkeys.FetchRecipients (fun _ => (none : Option Nat)) "testuser"
        " \necdsa-sha2-nistp256 AAAAE2VjZHNh\n" =
      .error ⟨Constants.ErrKind.noValidKeys, "testuser"⟩ :=
  claim_C5 _ _ _ (fun _ _ => Or.inr rfl)

/-- C6: a non-blank line that fails to parse is skipped without
aborting the others: a listing whose two scanned lines are one
well-formed key and one malformed line resolves to exactly that one
recipient with no error. -/
theorem claim_C6 {R : Type} (parse : String → Option R)
    (username body l1 l2 : String) (r : R)
    (hsplit : Ghkeys.scanLines body = [l1, l2])
    (h1 : Ghkeys.trimSpace l1 ≠ "")
    (hp1 : parse (Ghkeys.trimSpace l1) = some r)
    (hp2 : parse (Ghkeys.trimSpace l2) = none) :
    Ghkeys.FetchRecipients parse username body = .ok [r] := by
  have s1 : Ghkeys.keyLineStep parse [] l1 = [r] := by
    unfold Ghkeys.keyLineStep
    simp [h1, hp1]
  have s2 : Ghkeys.keyLineStep parse [r] l2 = [r] := by
    unfold Ghkeys.keyLineStep
    by_cases hb : Ghkeys.trimSpace l2 = ""
    · simp [hb]
    · simp [hb, hp2]
  unfold Ghkeys.FetchRecipients
  rw [hsplit, List.foldl_cons, s1, List.foldl_cons, s2, List.foldl_nil]
  rfl

/-- Witness for C6: one good key line plus one malformed line yields
exactly the one parsed recipient. -/
theorem claim_C6_witness :
    Ghkeys.FetchRecipients
        (fun s => if s = "ssh-ed25519 AAAAC3Nz" then some 7 else none)
        "testuser" "ssh-ed25519 AAAAC3Nz\nnot a key" = .ok [7] :=
  claim_C6 _ "testuser" _ "ssh-ed25519 AAAAC3Nz" "not a key" 7
    (by decide) (by decide) (by decide) (by decide)

/-- C3: any single identity whose public key was among the recipients
recovers the plaintext from the envelope; an identity whose public key
was not among them fails with the `DecryptFailed` error kind. -/
theorem claim_C3 {α : Type} (x : α) (recipients : List Crypt.PubKey)
    (env : Crypt.Envelope α) (idIn idOut : Crypt.Identity)
    (henc : Crypt.Encrypt recipients x = .ok env)
    (hin : idIn.pub ∈ recipients) (hout : idOut.pub ∉ recipients) :
    Crypt.Decrypt [idIn] env = .ok x ∧
      ∃ msg, Crypt.Decrypt [idOut] env =
        .error ⟨Constants.ErrKind.decrypt, msg⟩ := by
  have henv : env = ⟨recipients, x⟩ := by
    unfold Crypt.Encrypt Crypt.ageEncrypt at henc
    by_cases hempty : recipients.isEmpty
    · simp [hempty] at henc
    · simp only [hempty, if_neg, Bool.false_eq_true, not_false_eq_true,
        if_false] at henc
      cases henc
      rfl
  subst henv
  constructor
  · unfold Crypt.Decrypt Crypt.ageDecrypt
    simp [hin]
  · refine ⟨"no identity matched a recipient", ?_⟩
    unfold Crypt.Decrypt Crypt.ageDecrypt
    simp [hout]

/-- Witness for C3: an envelope for recipients 5 and 7 opens with the
identity for 7 and rejects the identity for 9. -/
theorem claim_C3_witness :
    Crypt.Decrypt [⟨7⟩] (⟨[5, 7], 42⟩ : Crypt.Envelope Nat) = .ok 42 ∧
      ∃ msg, Crypt.Decrypt [⟨9⟩] (⟨[5, 7], 42⟩ : Crypt.Envelope Nat) =
        .error ⟨Constants.ErrKind.decrypt, msg⟩ :=
  claim_C3 42 [5, 7] ⟨[5, 7], 42⟩ ⟨7⟩ ⟨9⟩ rfl (by decide) (by decide)

/-- C4: the create pipeline's overall result is the consumer's
(encryption) error when non-nil, otherwise the producer's (archiving)
error when non-nil, otherwise success. -/
theorem claim_C4 (encryptErr archiveErr : Option Constants.Err) :
    (∀ e, encryptErr = some e →
      CreateCmd.pipelineResult encryptErr archiveErr = some e) ∧
    (encryptErr = none →
      CreateCmd.pipelineResult encryptErr archiveErr = archiveErr) := by
  constructor
  · intro e he
    subst he
    rfl
  · intro he
    subst he
    cases archiveErr <;> rfl

/-- Witness for C4 at concrete stage outcomes: a consumer error wins
over a producer error, and with no consumer error the producer error
is returned. -/
theorem claim_C4_witness :
    CreateCmd.pipelineResult (some ⟨Constants.ErrKind.encrypt, "e"⟩)
        (some ⟨Constants.ErrKind.createArchive, "a"⟩) =
      some ⟨Constants.ErrKind.encrypt, "e"⟩ ∧
    CreateCmd.pipelineResult none
        (some ⟨Constants.ErrKind.createArchive, "a"⟩) =
      some ⟨Constants.ErrKind.createArchive, "a"⟩ :=
  ⟨(claim_C4 _ _).1 _ rfl, (claim_C4 none _).2 rfl⟩

namespace Archive

/-- A path outside the always-existing roots heads its own `MkdirAll`
chain. -/
theorem chainOf_self_mem (p : String)
    (h : ¬(p = "." ∨ p = "/" ∨ p = "")) : p ∈ chainOf p := by
  unfold chainOf dirChain
  rw [if_neg h]
  exact List.mem_cons_self _ _

/-- Prepending one entry to a materialization run. -/
theorem applyEntries_cons (d : String) (fs : ExtFs) (e : Entry)
    (es : List Entry) :
    applyEntries d fs (e :: es) = applyEntries d (extractStepFs d fs e) es :=
  rfl

/-- Splitting a materialization run. -/
theorem applyEntries_append (d : String) (fs : ExtFs)
    (l1 l2 : List Entry) :
    applyEntries d fs (l1 ++ l2) = applyEntries d (applyEntries d fs l1) l2 :=
  List.foldl_append _ _ _ _

/-- Dropping the symlink entries from a run changes nothing: only
directory and regular-file entries materialize anything. -/
theorem applyEntries_filter_symlink (d : String) (es : List Entry)
    (fs : ExtFs) :
    applyEntries d fs (es.filter (fun e => e.typeflag ≠ TypeFlag.symlink)) =
      applyEntries d fs es := by
  induction es generalizing fs with
  | nil => rfl
  | cons e rest ih =>
    by_cases hf : e.typeflag = TypeFlag.symlink
    · have hstep : extractStepFs d fs e = fs := by
        unfold extractStepFs
        rw [hf]
      rw [List.filter_cons_of_neg (by simp [hf]), applyEntries_cons, hstep,
        ih]
    · rw [List.filter_cons_of_pos (by simp [hf]), applyEntries_cons,
        applyEntries_cons, ih]

end Archive

/-- C2 counterexample: on a concrete traversal entry `../evil`,
`Extract` aborts not with a distinct `PathTraversal` error kind but
with the same `ErrExtract` sentinel (`ExtractFailed`) used for a
malformed stream — `internal/constants` declares no path-traversal
constant, and the guard wraps `ErrExtract` around the
`"path traversal: …"` message. -/
theorem claim_C2_counterexample :
    (Archive.Extract
        ⟨[⟨"../evil", Archive.TypeFlag.reg, 420, 4, [1, 2, 3, 4], ""⟩],
          false⟩ "dest" []).1 =
      .error ⟨Constants.ErrKind.extract, "path traversal: ../evil"⟩ ∧
    Constants.errKindOf
        (Archive.Extract
          ⟨[⟨"../evil", Archive.TypeFlag.reg, 420, 4, [1, 2, 3, 4], ""⟩],
            false⟩ "dest" []).1 =
      Constants.errKindOf
        (Archive.Extract (⟨[], true⟩ : Archive.TarStream) "dest" []).1 := by
  constructor
  · rfl
  · rfl

/-- C2 (amended): an entry whose normalized target escapes the
destination root makes `Extract` abort immediately with the
`ExtractFailed` error kind (the sentinel shared with every other
extraction failure — no distinct `PathTraversal` kind exists), with a
message naming the offending entry; no further entry is processed and
the filesystem holds exactly the materialization of the entries before
the offending one. -/
theorem claim_C2_amended (d : String) (t : Bool)
    (pre post : List Archive.Entry) (bad : Archive.Entry)
    (fs : Archive.ExtFs)
    (hpre : ∀ e ∈ pre, Archive.guardOk d e = true)
    (hbad : Archive.guardOk d bad = false) :
    Archive.Extract ⟨pre ++ bad :: post, t⟩ d fs =
      (.error ⟨Constants.ErrKind.extract, "path traversal: " ++ bad.name⟩,
       Archive.applyEntries d fs pre) :=
  Archive.extractLoop_abort d t pre bad post fs [] hpre hbad

/-- Witness for C2 (amended): a safe entry followed by `../evil` and a
trailing entry aborts at `../evil`, with only the safe entry
materialized. -/
theorem claim_C2_amended_witness :
    Archive.Extract
        ⟨[⟨"ok.txt", Archive.TypeFlag.reg, 420, 1, [7], ""⟩,
          ⟨"../evil", Archive.TypeFlag.reg, 420, 1, [8], ""⟩,
          ⟨"late.txt", Archive.TypeFlag.reg, 420, 1, [9], ""⟩], false⟩
        "dest" [] =
      (.error ⟨Constants.ErrKind.extract, "path traversal: ../evil"⟩,
       Archive.applyEntries "dest" [] [⟨"ok.txt", Archive.TypeFlag.reg, 420, 1, [7], ""⟩]) :=
  claim_C2_amended "dest" false
    [⟨"ok.txt", Archive.TypeFlag.reg, 420, 1, [7], ""⟩]
    [⟨"late.txt", Archive.TypeFlag.reg, 420, 1, [9], ""⟩]
    ⟨"../evil", Archive.TypeFlag.reg, 420, 1, [8], ""⟩ []
    (by decide) (by decide)

/-- C9: `Extract` performs no rollback — when the stream fails at some
entry (a guard rejection, or truncation at the end), the call returns
an error while the filesystem retains exactly the materialization of
every entry processed before the failure. -/
theorem claim_C9 (d : String) (s : Archive.TarStream)
    (pre : List Archive.Entry) (fs : Archive.ExtFs)
    (h : (∃ bad post, s.entries = pre ++ bad :: post ∧
            (∀ e ∈ pre, Archive.guardOk d e = true) ∧
            Archive.guardOk d bad = false) ∨
         (s.truncated = true ∧ s.entries = pre ∧
            ∀ e ∈ pre, Archive.guardOk d e = true)) :
    (∃ err, (Archive.Extract s d fs).1 = .error err) ∧
    (Archive.Extract s d fs).2 = Archive.applyEntries d fs pre := by
  rcases h with ⟨bad, post, hes, hpre, hbad⟩ | ⟨ht, hes, hpre⟩
  · unfold Archive.Extract
    rw [hes, Archive.extractLoop_abort d s.truncated pre bad post fs [] hpre hbad]
    exact ⟨⟨_, rfl⟩, rfl⟩
  · subst hes
    unfold Archive.Extract
    rw [Archive.extractLoop_ok d s.truncated s.entries fs [] hpre, ht]
    exact ⟨⟨_, rfl⟩, rfl⟩

/-- Witness for C9: the guard-failure case at `../up` retains the
earlier directory, and applying the theorem to a truncated two-entry
stream retains both entries. -/
theorem claim_C9_witness :
    (∃ err, (Archive.Extract
        ⟨[⟨"d", Archive.TypeFlag.dir, 493, 0, [], ""⟩,
          ⟨"../up", Archive.TypeFlag.reg, 420, 1, [3], ""⟩], false⟩
        "dest" []).1 = .error err) ∧
    (Archive.Extract
        ⟨[⟨"d", Archive.TypeFlag.dir, 493, 0, [], ""⟩,
          ⟨"../up", Archive.TypeFlag.reg, 420, 1, [3], ""⟩], false⟩
        "dest" []).2 =
      Archive.applyEntries "dest" []
        [⟨"d", Archive.TypeFlag.dir, 493, 0, [], ""⟩] :=
  claim_C9 "dest" _ [⟨"d", Archive.TypeFlag.dir, 493, 0, [], ""⟩] []
    (Or.inl ⟨⟨"../up", Archive.TypeFlag.reg, 420, 1, [3], ""⟩, [],
      rfl, by decide, by decide⟩)

/-- C10: the names a successful `Extract` returns are exactly the
names `List` returns on an identical copy of the stream, in the same
order. -/
theorem claim_C10 (s : Archive.TarStream) (d : String)
    (fs : Archive.ExtFs) (names : List String)
    (hok : (Archive.Extract s d fs).1 = .ok names) :
    Archive.List s = .ok names := by
  obtain ⟨ht, _, hnames⟩ := Archive.Extract_ok_inv s d fs names hok
  unfold Archive.List
  rw [ht, hnames]
  rfl

/-- Witness for C10 on a concrete two-entry stream. -/
theorem claim_C10_witness :
    Archive.List
        ⟨[⟨"d", Archive.TypeFlag.dir, 493, 0, [], ""⟩,
          ⟨"d/a.txt", Archive.TypeFlag.reg, 420, 1, [7], ""⟩], false⟩ =
      .ok ["d", "d/a.txt"] :=
  claim_C10
    ⟨[⟨"d", Archive.TypeFlag.dir, 493, 0, [], ""⟩,
      ⟨"d/a.txt", Archive.TypeFlag.reg, 420, 1, [7], ""⟩], false⟩
    "dest" [] ["d", "d/a.txt"] rfl

/-- C8: on a successful extraction, a symlink entry's name appears in
the returned list, yet the final filesystem equals the one obtained
from the non-symlink entries alone — only directory and regular-file
entries are materialized. -/
theorem claim_C8 (s : Archive.TarStream) (d : String)
    (fs : Archive.ExtFs) (names : List String)
    (hok : (Archive.Extract s d fs).1 = .ok names) :
    (∀ e ∈ s.entries, e.typeflag = Archive.TypeFlag.symlink →
      e.name ∈ names) ∧
    (Archive.Extract s d fs).2 =
      Archive.applyEntries d fs
        (s.entries.filter (fun e => e.typeflag ≠ Archive.TypeFlag.symlink)) := by
  obtain ⟨ht, hall, hnames⟩ := Archive.Extract_ok_inv s d fs names hok
  constructor
  · intro e he _
    rw [hnames]
    exact List.mem_map_of_mem _ he
  · unfold Archive.Extract
    rw [Archive.extractLoop_ok d s.truncated s.entries fs [] hall]
    exact (Archive.applyEntries_filter_symlink d s.entries fs).symm

/-- Witness for C8 on a stream holding a symlink between a directory
and a file. -/
theorem claim_C8_witness :
    (∀ e ∈ ([⟨"d", Archive.TypeFlag.dir, 493, 0, [], ""⟩,
        ⟨"d/l", Archive.TypeFlag.symlink, 511, 0, [], "t"⟩,
        ⟨"d/a", Archive.TypeFlag.reg, 420, 1, [7], ""⟩] : List Archive.Entry),
      e.typeflag = Archive.TypeFlag.symlink → e.name ∈ ["d", "d/l", "d/a"]) ∧
    (Archive.Extract
        ⟨[⟨"d", Archive.TypeFlag.dir, 493, 0, [], ""⟩,
          ⟨"d/l", Archive.TypeFlag.symlink, 511, 0, [], "t"⟩,
          ⟨"d/a", Archive.TypeFlag.reg, 420, 1, [7], ""⟩], false⟩
        "dest" []).2 =
      Archive.applyEntries "dest" []
        (([⟨"d", Archive.TypeFlag.dir, 493, 0, [], ""⟩,
          ⟨"d/l", Archive.TypeFlag.symlink, 511, 0, [], "t"⟩,
          ⟨"d/a", Archive.TypeFlag.reg, 420, 1, [7], ""⟩] : List Archive.Entry).filter
          (fun e => e.typeflag ≠ Archive.TypeFlag.symlink)) :=
  claim_C8
    ⟨[⟨"d", Archive.TypeFlag.dir, 493, 0, [], ""⟩,
      ⟨"d/l", Archive.TypeFlag.symlink, 511, 0, [], "t"⟩,
      ⟨"d/a", Archive.TypeFlag.reg, 420, 1, [7], ""⟩], false⟩
    "dest" [] ["d", "d/l", "d/a"] rfl

/-- C7: an accepted regular-file entry is materialized by creating the
target's parent directories as needed, writing exactly `entry.size`
bytes of stream content to the target, and truncating (replacing) any
pre-existing file there, after which extraction continues with the
remaining entries. -/
theorem claim_C7 (d : String) (e : Archive.Entry)
    (rest : List Archive.Entry) (fs : Archive.ExtFs) (acc : List String)
    (t : Bool)
    (hg : Archive.guardOk d e = true)
    (hreg : e.typeflag = Archive.TypeFlag.reg)
    (hwf : e.content.length = e.size)
    (hpar : Archive.isFileAt fs (Gopath.dirname (Archive.target d e)) = false)
    (hse : Gopath.dirname (Archive.target d e) ≠ Archive.target d e)
    (hstop : ¬(Gopath.dirname (Archive.target d e) = "." ∨
      Gopath.dirname (Archive.target d e) = "/" ∨
      Gopath.dirname (Archive.target d e) = "")) :
    Archive.extractLoop d t (e :: rest) fs acc =
      Archive.extractLoop d t rest (Archive.extractStepFs d fs e)
        (acc ++ [e.name]) ∧
    (∃ c, Archive.fsLookup (Archive.extractStepFs d fs e)
        (Archive.target d e) = some (.file e.mode c) ∧
      c.length = e.size) ∧
    (∃ m, Archive.fsLookup (Archive.extractStepFs d fs e)
        (Gopath.dirname (Archive.target d e)) = some (.dir m)) ∧
    (∀ o, Archive.fsLookup fs (Archive.target d e) = some o →
      Archive.fsLookup (Archive.extractStepFs d fs e)
        (Archive.target d e) = some (.file e.mode e.content)) := by
  have hstep : Archive.extractStepFs d fs e =
      Archive.fsInsert (Archive.target d e) (.file e.mode e.content)
        (Archive.mkdirAll (Gopath.dirname (Archive.target d e)) 493 fs) := by
    unfold Archive.extractStepFs
    rw [hreg]
  refine ⟨?_, ?_, ?_, ?_⟩
  · simp [Archive.extractLoop, hg]
  · refine ⟨e.content, ?_, hwf⟩
    rw [hstep]
    exact Archive.fsLookup_insert_self _ _ _
  · rw [hstep, Archive.fsLookup_insert_ne _ _ _ _ hse,
      Archive.fsLookup_mkdirAll_mem _ _ _ _ (Archive.chainOf_self_mem _ hstop)]
    unfold Archive.isFileAt at hpar
    cases hq : Archive.fsLookup fs (Gopath.dirname (Archive.target d e)) with
    | none => exact ⟨493, rfl⟩
    | some o =>
      cases o with
      | dir m => exact ⟨m, rfl⟩
      | file m c =>
        rw [hq] at hpar
        simp at hpar
  · intro o _
    rw [hstep]
    exact Archive.fsLookup_insert_self _ _ _

/-- Witness for C7: a file entry `sub/a.txt` with two content bytes,
extracted over a filesystem that already holds a different file at the
target. -/
theorem claim_C7_witness :
    Archive.extractLoop "dest" false
        [⟨"sub/a.txt", Archive.TypeFlag.reg, 420, 2, [1, 2], ""⟩]
        [("dest/sub/a.txt", Archive.ExtObj.file 9 [9, 9, 9])] [] =
      Archive.extractLoop "dest" false []
        (Archive.extractStepFs "dest"
          [("dest/sub/a.txt", Archive.ExtObj.file 9 [9, 9, 9])]
          ⟨"sub/a.txt", Archive.TypeFlag.reg, 420, 2, [1, 2], ""⟩)
        ["sub/a.txt"] ∧
    (∃ c, Archive.fsLookup
        (Archive.extractStepFs "dest"
          [("dest/sub/a.txt", Archive.ExtObj.file 9 [9, 9, 9])]
          ⟨"sub/a.txt", Archive.TypeFlag.reg, 420, 2, [1, 2], ""⟩)
        (Archive.target "dest"
          ⟨"sub/a.txt", Archive.TypeFlag.reg, 420, 2, [1, 2], ""⟩) =
      some (.file 420 c) ∧ c.length = 2) ∧
    (∃ m, Archive.fsLookup
        (Archive.extractStepFs "dest"
          [("dest/sub/a.txt", Archive.ExtObj.file 9 [9, 9, 9])]
          ⟨"sub/a.txt", Archive.TypeFlag.reg, 420, 2, [1, 2], ""⟩)
        (Gopath.dirname (Archive.target "dest"
          ⟨"sub/a.txt", Archive.TypeFlag.reg, 420, 2, [1, 2], ""⟩)) =
      some (.dir m)) ∧
    (∀ o, Archive.fsLookup
        [("dest/sub/a.txt", Archive.ExtObj.file 9 [9, 9, 9])]
        (Archive.target "dest"
          ⟨"sub/a.txt", Archive.TypeFlag.reg, 420, 2, [1, 2], ""⟩) = some o →
      Archive.fsLookup
        (Archive.extractStepFs "dest"
          [("dest/sub/a.txt", Archive.ExtObj.file 9 [9, 9, 9])]
          ⟨"sub/a.txt", Archive.TypeFlag.reg, 420, 2, [1, 2], ""⟩)
        (Archive.target "dest"
          ⟨"sub/a.txt", Archive.TypeFlag.reg, 420, 2, [1, 2], ""⟩) =
      some (.file 420 [1, 2])) :=
  claim_C7 "dest" ⟨"sub/a.txt", Archive.TypeFlag.reg, 420, 2, [1, 2], ""⟩
    [] [("dest/sub/a.txt", Archive.ExtObj.file 9 [9, 9, 9])] [] false
    (by decide) rfl (by decide) (by decide) (by decide) (by decide)

namespace Archive

/-- A walk of any node emits at least the node's own entry. -/
theorem walk_ne (path : String) (n : FsNode) : walk path n ≠ [] := by
  cases n <;> simp [walk]

/-- Creating from at least one path yields at least one entry. -/
theorem Create_entries_ne (roots : List (String × FsNode))
    (h : roots ≠ []) : (Create roots).entries ≠ [] := by
  cases roots with
  | nil => exact absurd rfl h
  | cons r rest =>
    unfold Create
    simp only [List.flatMap_cons]
    intro hcontra
    rcases List.append_eq_nil.mp hcontra with ⟨h1, _⟩
    exact walk_ne r.1 r.2 h1

end Archive

/-- C1: round-trip — encrypting the archive created from a non-empty
path set for a non-empty recipient list, decrypting with an identity
matching one of the recipients, and extracting into a destination
directory succeeds and reproduces, under that destination, every
walked regular file with byte-identical content and every walked
directory, each at the join of the destination with its archived
path.  The separation hypotheses say the destination layout is
non-degenerate: all entries pass the traversal guard, distinct files
land on distinct targets, no file target collides with any directory
`MkdirAll` chain, and no directory target is one of the always-present
roots. -/
theorem claim_C1_roundtrip
    (roots : List (String × Archive.FsNode))
    (recipients : List Crypt.PubKey) (id : Crypt.Identity) (d : String)
    (hroots : roots ≠ []) (hrcpts : recipients ≠ [])
    (hid : id.pub ∈ recipients)
    (hguard : ∀ e ∈ (Archive.Create roots).entries,
      Archive.guardOk d e = true)
    (hnodup : (((Archive.Create roots).entries.filter
      (fun e => e.typeflag = Archive.TypeFlag.reg)).map
        (Archive.target d)).Nodup)
    (hsep : ∀ x ∈ (Archive.Create roots).entries,
      x.typeflag = Archive.TypeFlag.reg →
      ∀ f ∈ (Archive.Create roots).entries,
        Archive.target d x ∉ Archive.dirTouched d f)
    (hdirok : ∀ f ∈ (Archive.Create roots).entries,
      f.typeflag = Archive.TypeFlag.dir →
      ¬(Archive.target d f = "." ∨ Archive.target d f = "/" ∨
        Archive.target d f = "")) :
    ∃ env, Crypt.Encrypt recipients (Archive.Create roots) = .ok env ∧
      Crypt.Decrypt [id] env = .ok (Archive.Create roots) ∧
      (Archive.Extract (Archive.Create roots) d []).1 =
        .ok ((Archive.Create roots).entries.map (·.name)) ∧
      (Archive.Create roots).entries.map (·.name) ≠ [] ∧
      (∀ f ∈ (Archive.Create roots).entries,
        f.typeflag = Archive.TypeFlag.reg →
        Archive.fsLookup (Archive.Extract (Archive.Create roots) d []).2
          (Archive.target d f) = some (.file f.mode f.content)) ∧
      (∀ f ∈ (Archive.Create roots).entries,
        f.typeflag = Archive.TypeFlag.dir →
        ∃ m, Archive.fsLookup
          (Archive.Extract (Archive.Create roots) d []).2
          (Archive.target d f) = some (.dir m)) := by
  have hempty : recipients.isEmpty = false := by
    cases recipients with
    | nil => exact absurd rfl hrcpts
    | cons a l => rfl
  have htr : (Archive.Create roots).truncated = false := rfl
  have hext : Archive.Extract (Archive.Create roots) d [] =
      (.ok ((Archive.Create roots).entries.map (·.name)),
       Archive.applyEntries d [] (Archive.Create roots).entries) := by
    unfold Archive.Extract
    rw [Archive.extractLoop_ok d _ _ [] [] hguard, htr]
    simp
  refine ⟨⟨recipients, Archive.Create roots⟩, ?_, ?_, ?_, ?_, ?_, ?_⟩
  · unfold Crypt.Encrypt Crypt.ageEncrypt
    rw [hempty]
    rfl
  · unfold Crypt.Decrypt Crypt.ageDecrypt
    simp [hid]
  · rw [hext]
  · intro hcontra
    exact Archive.Create_entries_ne roots hroots (List.map_eq_nil_iff.mp hcontra)
  · intro f hf hreg
    rw [hext]
    obtain ⟨pre, post, hsplit⟩ := List.append_of_mem hf
    have hnotpost : ∀ x ∈ post, x.typeflag = Archive.TypeFlag.reg →
        Archive.target d x ≠ Archive.target d f := by
      have hfilter : (Archive.Create roots).entries.filter
          (fun e => e.typeflag = Archive.TypeFlag.reg) =
          pre.filter (fun e => e.typeflag = Archive.TypeFlag.reg) ++
          f :: post.filter (fun e => e.typeflag = Archive.TypeFlag.reg) := by
        rw [hsplit, List.filter_append,
          List.filter_cons_of_pos (by simp [hreg])]
      rw [hfilter, List.map_append, List.map_cons] at hnodup
      have h1 := hnodup.of_append_right
      have h2 := (List.nodup_cons.mp h1).1
      intro x hx hxr hxeq
      exact h2 (hxeq ▸ List.mem_map_of_mem (Archive.target d)
        (List.mem_filter.mpr ⟨hx, by simp [hxr]⟩))
    rw [hsplit, Archive.applyEntries_append, Archive.applyEntries_cons]
    have hstep : Archive.extractStepFs d (Archive.applyEntries d [] pre) f =
        Archive.fsInsert (Archive.target d f) (.file f.mode f.content)
          (Archive.mkdirAll (Gopath.dirname (Archive.target d f)) 493
            (Archive.applyEntries d [] pre)) := by
      unfold Archive.extractStepFs
      rw [hreg]
    apply Archive.fsLookup_apply_existing
    · rw [hstep]
      exact Archive.fsLookup_insert_self _ _ _
    · exact hnotpost
  · intro f hf hdir
    rw [hext]
    obtain ⟨pre, post, hsplit⟩ := List.append_of_mem hf
    have hpresub : ∀ x ∈ pre, x ∈ (Archive.Create roots).entries :=
      fun x hx => hsplit ▸ List.mem_append_left _ hx
    have hpostsub : ∀ x ∈ post, x ∈ (Archive.Create roots).entries :=
      fun x hx => hsplit ▸ List.mem_append_right _ (List.mem_cons_of_mem _ hx)
    have hfmem : f ∈ (Archive.Create roots).entries := hf
    rw [hsplit, Archive.applyEntries_append, Archive.applyEntries_cons]
    have hstep : Archive.extractStepFs d (Archive.applyEntries d [] pre) f =
        Archive.mkdirAll (Archive.target d f) f.mode
          (Archive.applyEntries d [] pre) := by
      unfold Archive.extractStepFs
      rw [hdir]
    have hmem := Archive.chainOf_self_mem (Archive.target d f)
      (hdirok f hf hdir)
    have hafter : ∃ m,
        Archive.fsLookup (Archive.extractStepFs d
          (Archive.applyEntries d [] pre) f) (Archive.target d f) =
        some (.dir m) := by
      rw [hstep, Archive.fsLookup_mkdirAll_mem _ _ _ _ hmem]
      cases hq : Archive.fsLookup (Archive.applyEntries d [] pre)
          (Archive.target d f) with
      | none => exact ⟨f.mode, rfl⟩
      | some o =>
        cases o with
        | dir m => exact ⟨m, rfl⟩
        | file m c =>
          exfalso
          rcases Archive.fsLookup_apply_file_source d pre []
              (Archive.target d f) m c hq with hbase | ⟨x, hx, hxr, hxt⟩
          · simp [Archive.fsLookup, List.find?] at hbase
          · have hnot := hsep x (hpresub x hx) hxr f hfmem
            rw [hxt] at hnot
            apply hnot
            unfold Archive.dirTouched
            rw [hdir]
            exact hmem
    obtain ⟨m, hm⟩ := hafter
    refine ⟨m, ?_⟩
    apply Archive.fsLookup_apply_existing _ _ _ _ _ hm
    intro x hx hxr hxeq
    have hnot := hsep x (hpostsub x hx) hxr f hfmem
    rw [hxeq] at hnot
    apply hnot
    unfold Archive.dirTouched
    rw [hdir]
    exact hmem

/-- Witness for C1: a tree `src/{data.txt, sub/b.txt}` archived for
recipients 5 and 7, decrypted with the identity for 7, extracted under
`dest`. -/
theorem claim_C1_witness :
    ∃ env, Crypt.Encrypt [5, 7]
        (Archive.Create [("src", Archive.FsNode.dir 493
          [("data.txt", Archive.FsNode.file 420 [100, 97, 116, 97]),
           ("sub", Archive.FsNode.dir 493
             [("b.txt", Archive.FsNode.file 420 [9])])])]) = .ok env ∧
      Crypt.Decrypt [⟨7⟩] env =
        .ok (Archive.Create [("src", Archive.FsNode.dir 493
          [("data.txt", Archive.FsNode.file 420 [100, 97, 116, 97]),
           ("sub", Archive.FsNode.dir 493
             [("b.txt", Archive.FsNode.file 420 [9])])])]) ∧
      (Archive.Extract (Archive.Create [("src", Archive.FsNode.dir 493
          [("data.txt", Archive.FsNode.file 420 [100, 97, 116, 97]),
           ("sub", Archive.FsNode.dir 493
             [("b.txt", Archive.FsNode.file 420 [9])])])]) "dest" []).1 =
        .ok ((Archive.Create [("src", Archive.FsNode.dir 493
          [("data.txt", Archive.FsNode.file 420 [100, 97, 116, 97]),
           ("sub", Archive.FsNode.dir 493
             [("b.txt", Archive.FsNode.file 420 [9])])])]).entries.map
          (·.name)) ∧
      (Archive.Create [("src", Archive.FsNode.dir 493
          [("data.txt", Archive.FsNode.file 420 [100, 97, 116, 97]),
           ("sub", Archive.FsNode.dir 493
             [("b.txt", Archive.FsNode.file 420 [9])])])]).entries.map
          (·.name) ≠ [] ∧
      (∀ f ∈ (Archive.Create [("src", Archive.FsNode.dir 493
          [("data.txt", Archive.FsNode.file 420 [100, 97, 116, 97]),
           ("sub", Archive.FsNode.dir 493
             [("b.txt", Archive.FsNode.file 420 [9])])])]).entries,
        f.typeflag = Archive.TypeFlag.reg →
        Archive.fsLookup (Archive.Extract
          (Archive.Create [("src", Archive.FsNode.dir 493
            [("data.txt", Archive.FsNode.file 420 [100, 97, 116, 97]),
             ("sub", Archive.FsNode.dir 493
               [("b.txt", Archive.FsNode.file 420 [9])])])]) "dest" []).2
          (Archive.target "dest" f) = some (.file f.mode f.content)) ∧
      (∀ f ∈ (Archive.Create [("src", Archive.FsNode.dir 493
          [("data.txt", Archive.FsNode.file 420 [100, 97, 116, 97]),
           ("sub", Archive.FsNode.dir 493
             [("b.txt", Archive.FsNode.file 420 [9])])])]).entries,
        f.typeflag = Archive.TypeFlag.dir →
        ∃ m, Archive.fsLookup (Archive.Extract
          (Archive.Create [("src", Archive.FsNode.dir 493
            [("data.txt", Archive.FsNode.file 420 [100, 97, 116, 97]),
             ("sub", Archive.FsNode.dir 493
               [("b.txt", Archive.FsNode.file 420 [9])])])]) "dest" []).2
          (Archive.target "dest" f) = some (.dir m)) :=
  claim_C1_roundtrip
    [("src", Archive.FsNode.dir 493
      [("data.txt", Archive.FsNode.file 420 [100, 97, 116, 97]),
       ("sub", Archive.FsNode.dir 493
         [("b.txt", Archive.FsNode.file 420 [9])])])]
    [5, 7] ⟨7⟩ "dest"
    (List.cons_ne_nil _ _) (by decide) (by decide) (by decide) (by decide)
    (by decide) (by decide)
